import Mathlib

/-
Verification of the JSON-flattening core of the mstrio-py workflow scripts.

The repository's one specified component is a recursive JSON flattener,
present as two copies:
  * `flatten_json` in workflows/zwclistobjectlineage_v2.py (lines 119-144)
  * `flatten_json` in workflows/zebralistobjectlineage.py (lines 95-120)
together with the export loops that add caller-supplied object fields after
flattening, and a separate per-field flattener `flatten_json_field` in
workflows/zebralistprojects.py (lines 30-76).

This file gives a shallow embedding of those functions and proves / refutes
the specified properties.  Python dictionaries built from a pair list
(`dict(items)`) are modelled by `pydict`: pairs are inserted left to right,
an insertion on an existing key updates that entry in place, a fresh key is
appended at the end.  This reproduces CPython semantics exactly: keys appear
in first-insertion order and carry the value of their last occurrence.
-/

/-- Python `d[k] = v` on an association list: update the first entry with key
`k` in place, or append `(k, v)` if `k` is absent. -/
def setItem {α : Type} : List (String × α) → String → α → List (String × α)
  | [], k, v => [(k, v)]
  | (k', v') :: rest, k, v =>
      if k' = k then (k, v) :: rest else (k', v') :: setItem rest k v

/-- One insertion step of building a Python dict from a pair list. -/
def insStep {α : Type} (acc : List (String × α)) (p : String × α) :
    List (String × α) :=
  setItem acc p.1 p.2

/-- Python `dict(items)`: insert the pairs left to right into an initially
empty dict. -/
def pydict {α : Type} (xs : List (String × α)) : List (String × α) :=
  xs.foldl insStep []

/-- The key sequence of an association list. -/
def keysOf {α : Type} (m : List (String × α)) : List String :=
  m.map Prod.fst

/-- Python `m[k]` / `m.get(k)`: value at the first entry with key `k`. -/
def getVal {α : Type} (k : String) (m : List (String × α)) : Option α :=
  (m.find? (fun p => p.1 == k)).map Prod.snd

/-- Value at the last entry with key `k`, if any. -/
def lastVal {α : Type} (k : String) (m : List (String × α)) : Option α :=
  getVal k m.reverse

mutual
/-- A JSON value (spec section 3): an object, an array, or a scalar
(string, number, boolean, null). -/
inductive Json where
  | obj (fields : JObj)
  | arr (elems : JArr)
  | str (s : String)
  | num (n : Int)
  | bool (b : Bool)
  | null
deriving DecidableEq
/-- The ordered field list of a JSON object (Python dict iteration order). -/
inductive JObj where
  | nil
  | cons (key : String) (val : Json) (rest : JObj)
deriving DecidableEq
/-- The element list of a JSON array. -/
inductive JArr where
  | nil
  | cons (head : Json) (tail : JArr)
deriving DecidableEq
end

/-- Build an object field list from an ordinary list. -/
def JObj.ofList : List (String × Json) → JObj
  | [] => .nil
  | (k, v) :: rest => .cons k v (JObj.ofList rest)

/-- Build an array element list from an ordinary list. -/
def JArr.ofList : List Json → JArr
  | [] => .nil
  | x :: rest => .cons x (JArr.ofList rest)

/-- View an object field list as an ordinary list. -/
def JObj.toList : JObj → List (String × Json)
  | .nil => []
  | .cons k v rest => (k, v) :: JObj.toList rest

/-- View an array element list as an ordinary list. -/
def JArr.toList : JArr → List Json
  | .nil => []
  | .cons x rest => x :: JArr.toList rest

/-- A scalar JSON value: string, number, boolean or null (spec glossary). -/
def isScalar : Json → Bool
  | .obj _ => false
  | .arr _ => false
  | _ => true

mutual
/-- Number of scalar leaves of a JSON value, counting array elements
(spec section 8). -/
def countLeaves : Json → Nat
  | .obj fields => countLeavesO fields
  | .arr elems => countLeavesA elems
  | _ => 1
def countLeavesO : JObj → Nat
  | .nil => 0
  | .cons _ v rest => countLeaves v + countLeavesO rest
def countLeavesA : JArr → Nat
  | .nil => 0
  | .cons x rest => countLeaves x + countLeavesA rest
end

mutual
/-- No array of the value has an element that is itself an array. -/
def noNestedArr : Json → Bool
  | .obj fields => noNestedArrO fields
  | .arr elems => noNestedArrA elems
  | _ => true
def noNestedArrO : JObj → Bool
  | .nil => true
  | .cons _ v rest => noNestedArr v && noNestedArrO rest
def noNestedArrA : JArr → Bool
  | .nil => true
  | .cons x rest =>
      (match x with
       | .arr _ => false
       | _ => true) && noNestedArr x && noNestedArrA rest
end

mutual
/-- Item list built by the dict branch of `flatten_json` in
workflows/zwclistobjectlineage_v2.py (lines 122-134): for each key `k` with
value `v`, `new_key` is `parent_key + sep + k`, or `k` alone when
`parent_key` is empty (Python string truthiness).  A dict value contributes
`flatten_json(v, new_key, sep).items()`, i.e. `pydict (objItems ...)`; a
list value contributes the inline element loop `arrItems`; any other value
contributes the single pair `(new_key, v)`. -/
def objItems (fields : JObj) (parent_key sep : String) : List (String × Json) :=
  match fields with
  | .nil => []
  | .cons k v rest =>
      let new_key := if parent_key = "" then k else parent_key ++ sep ++ k
      (match v with
       | .obj f2 => pydict (objItems f2 new_key sep)
       | .arr es => arrItems es new_key sep 0
       | sv => [(new_key, sv)]) ++ objItems rest parent_key sep
/-- Item list built by the list-element loop of `flatten_json`
(zwclistobjectlineage_v2.py lines 127-132 inside a dict, lines 135-140 at
top level): element `i` that is a dict contributes
`flatten_json(item, key + sep + str(i), sep).items()`; any other element
contributes the single pair `(key + sep + str(i), item)`. -/
def arrItems (elems : JArr) (key sep : String) (i : Nat) : List (String × Json) :=
  match elems with
  | .nil => []
  | .cons item rest =>
      (match item with
       | .obj f2 => pydict (objItems f2 (key ++ sep ++ toString i) sep)
       | other => [(key ++ sep ++ toString i, other)]) ++ arrItems rest key sep (i + 1)
end

/-- `flatten_json` of workflows/zwclistobjectlineage_v2.py (lines 119-144):
builds the item list according to the shape of `data` and returns
`dict(items)`. -/
def flatten_json (data : Json) (parent_key : String) (sep : String) :
    List (String × Json) :=
  pydict (match data with
    | .obj fields => objItems fields parent_key sep
    | .arr elems => arrItems elems parent_key sep 0
    | other => [(parent_key, other)])

mutual
/-- Item list of the dict branch of `flatten_json` in
workflows/zebralistobjectlineage.py (lines 98-110); the source text is
identical to the copy in zwclistobjectlineage_v2.py. -/
def zObjItems (fields : JObj) (parent_key sep : String) : List (String × Json) :=
  match fields with
  | .nil => []
  | .cons k v rest =>
      let new_key := if parent_key = "" then k else parent_key ++ sep ++ k
      (match v with
       | .obj f2 => pydict (zObjItems f2 new_key sep)
       | .arr es => zArrItems es new_key sep 0
       | sv => [(new_key, sv)]) ++ zObjItems rest parent_key sep
/-- Item list of the list-element loops of `flatten_json` in
workflows/zebralistobjectlineage.py (lines 103-116). -/
def zArrItems (elems : JArr) (key sep : String) (i : Nat) : List (String × Json) :=
  match elems with
  | .nil => []
  | .cons item rest =>
      (match item with
       | .obj f2 => pydict (zObjItems f2 (key ++ sep ++ toString i) sep)
       | other => [(key ++ sep ++ toString i, other)]) ++ zArrItems rest key sep (i + 1)
end

/-- `flatten_json` of workflows/zebralistobjectlineage.py (lines 95-120). -/
def flatten_json_zebra (data : Json) (parent_key : String) (sep : String) :
    List (String × Json) :=
  pydict (match data with
    | .obj fields => zObjItems fields parent_key sep
    | .arr elems => zArrItems elems parent_key sep 0
    | other => [(parent_key, other)])

/-- Lines 159-162 of workflows/zebralistobjectlineage.py: after flattening,
`flattened['object_id'] = obj.id` and then
`flattened['object_name'] = getattr(obj, 'name', 'Unknown')`. -/
def add_object_info (flattened : List (String × Json)) (oid oname : String) :
    List (String × Json) :=
  setItem (setItem flattened "object_id" (.str oid)) "object_name" (.str oname)

/-- Lines 332-336 of workflows/zwclistobjectlineage_v2.py: after flattening,
`flattened['OBJECT_ID'] = obj.id` and then
`flattened['OBJECT_NAME'] = getattr(obj, 'name', 'Unknown')`. -/
def add_object_info_zwc (flattened : List (String × Json)) (oid oname : String) :
    List (String × Json) :=
  setItem (setItem flattened "OBJECT_ID" (.str oid)) "OBJECT_NAME" (.str oname)

mutual
/-- The item list of `objItems` with every intermediate `dict(...)`
removed: the raw left-to-right sequence of (path, value) pairs produced by
the traversal, with duplicates kept. -/
def rawObjItems (fields : JObj) (parent_key sep : String) : List (String × Json) :=
  match fields with
  | .nil => []
  | .cons k v rest =>
      let new_key := if parent_key = "" then k else parent_key ++ sep ++ k
      (match v with
       | .obj f2 => rawObjItems f2 new_key sep
       | .arr es => rawArrItems es new_key sep 0
       | sv => [(new_key, sv)]) ++ rawObjItems rest parent_key sep
/-- Raw counterpart of `arrItems`, with intermediate `dict(...)` removed. -/
def rawArrItems (elems : JArr) (key sep : String) (i : Nat) : List (String × Json) :=
  match elems with
  | .nil => []
  | .cons item rest =>
      (match item with
       | .obj f2 => rawObjItems f2 (key ++ sep ++ toString i) sep
       | other => [(key ++ sep ++ toString i, other)]) ++ rawArrItems rest key sep (i + 1)
end

/-- Raw traversal items of `flatten_json`, before the final `dict(...)`. -/
def rawFlatten (data : Json) (parent_key : String) (sep : String) :
    List (String × Json) :=
  match data with
  | .obj fields => rawObjItems fields parent_key sep
  | .arr elems => rawArrItems elems parent_key sep 0
  | other => [(parent_key, other)]

/-- Object rule as the spec states it (section 4): for each key `k` with
value `v`, recursively flatten `v` under `new_key` and merge the resulting
sub-mappings. -/
def specObjMerge (fields : List (String × Json)) (parent_key sep : String) :
    List (String × Json) :=
  fields.flatMap fun kv =>
    flatten_json kv.2 (if parent_key = "" then kv.1 else parent_key ++ sep ++ kv.1) sep

/-- Array rule as implemented: element `i` that is an object is recursively
flattened under `key + sep + str(i)`; any other element (scalar or array)
becomes the single pair `(key + sep + str(i), element)`. -/
def specArrMerge (elems : List Json) (key sep : String) (start : Nat) :
    List (String × Json) :=
  (List.enumFrom start elems).flatMap fun p =>
    match p.2 with
    | .obj _ => flatten_json p.2 (key ++ sep ++ toString p.1) sep
    | other => [(key ++ sep ++ toString p.1, other)]

/-- A Python value as handled by `flatten_json_field` in
workflows/zebralistprojects.py: `None`, a string, a dict, or another
JSON-decodable value (number, boolean, list). -/
inductive PyVal where
  | none
  | str (s : String)
  | dict (entries : List (String × PyVal))
  | int (n : Int)
  | bool (b : Bool)
  | list (elems : List PyVal)

/-- Python `m.get(k, d)` on a dict. -/
def pyGet (m : List (String × PyVal)) (k : String) (d : PyVal) : PyVal :=
  ((m.find? (fun p => p.1 == k)).map Prod.snd).getD d

/-- Python truthiness of a value, as used by `str(json_data) if json_data
else "N/A"`. -/
def pyTruthy : PyVal → Bool
  | .none => false
  | .str s => s != ""
  | .dict m => !m.isEmpty
  | .int n => n != 0
  | .bool b => b
  | .list l => !l.isEmpty

/-- Line 44 of workflows/zebralistprojects.py: the mapping returned when
`json_data` is `None` or the string `'N/A'`. -/
def naReturn (fpref : String) : List (String × PyVal) :=
  [(fpref ++ "_id", .str "N/A"), (fpref ++ "_name", .str "N/A"),
   (fpref ++ "_fullname", .str "N/A")]

/-- Lines 56-68 of workflows/zebralistprojects.py: the dict branch assigns
seven fields extracted with `.get`; any other (non-dict) value is rendered
with `str(...)` into `_value` alongside `_id` and `_name` defaults.
`pyStr` abstracts the Python `str(...)` builtin. -/
def postParseBranch (pyStr : PyVal → String) (d : PyVal) (fpref : String) :
    List (String × PyVal) :=
  match d with
  | .dict m =>
      setItem (setItem (setItem (setItem (setItem (setItem (setItem []
        (fpref ++ "_id") (pyGet m "id" (.str "N/A")))
        (fpref ++ "_name") (pyGet m "name" (.str "N/A")))
        (fpref ++ "_fullname") (pyGet m "fullName" (pyGet m "full_name" (.str "N/A"))))
        (fpref ++ "_username") (pyGet m "username" (pyGet m "userName" (.str "N/A"))))
        (fpref ++ "_email") (pyGet m "email" (pyGet m "emailAddress" (.str "N/A"))))
        (fpref ++ "_type") (pyGet m "type" (.str "N/A")))
        (fpref ++ "_subtype") (pyGet m "subtype" (pyGet m "subType" (.str "N/A")))
  | other =>
      setItem (setItem (setItem []
        (fpref ++ "_value") (.str (pyStr other)))
        (fpref ++ "_id") (.str "N/A"))
        (fpref ++ "_name") (.str "N/A")

/-- `flatten_json_field` of workflows/zebralistprojects.py (lines 30-76).
`loads` abstracts `json.loads` (`Option.none` standing for
`JSONDecodeError`), `pyStr` abstracts `str(...)`.  A string input is parsed;
on failure the simple-string mapping of line 53 is returned; otherwise the
parsed (or original non-string) value goes through the dict / other
branches. -/
def flatten_json_field (loads : String → Option PyVal) (pyStr : PyVal → String)
    (json_data : PyVal) (fpref : String) : List (String × PyVal) :=
  match json_data with
  | .none => naReturn fpref
  | .str s =>
      if s = "N/A" then naReturn fpref
      else
        match loads s with
        | Option.none =>
            [(fpref ++ "_name", .str s), (fpref ++ "_id", .str "N/A"),
             (fpref ++ "_fullname", .str "N/A")]
        | Option.some d => postParseBranch pyStr d fpref
  | d => postParseBranch pyStr d fpref

/-- Lines 72-74 of workflows/zebralistprojects.py: the `except` handler,
applied to whatever `flattened` holds when the exception fires. -/
def flatten_json_field_except (pyStr : PyVal → String)
    (flattened : List (String × PyVal)) (json_data : PyVal)
    (fpref : String) (emsg : String) : List (String × PyVal) :=
  setItem (setItem (setItem flattened
    (fpref ++ "_id") (.str "N/A"))
    (fpref ++ "_name") (if pyTruthy json_data then .str (pyStr json_data) else .str "N/A"))
    (fpref ++ "_error") (.str ("Parse error: " ++ emsg))

/-- Key-level insertion step: the effect of one dict insertion on the key
sequence. -/
def stepIns (ka : List String) (k : String) : List String :=
  if k ∈ ka then ka else ka ++ [k]


@[simp] theorem keysOf_nil {α : Type} : keysOf ([] : List (String × α)) = [] := rfl

@[simp] theorem keysOf_cons {α : Type} (p : String × α) (m : List (String × α)) :
    keysOf (p :: m) = p.1 :: keysOf m := rfl

@[simp] theorem keysOf_append {α : Type} (m m2 : List (String × α)) :
    keysOf (m ++ m2) = keysOf m ++ keysOf m2 := by
  simp [keysOf]

@[simp] theorem keysOf_length {α : Type} (m : List (String × α)) :
    (keysOf m).length = m.length := by
  simp [keysOf]

@[simp] theorem getVal_nil {α : Type} (k : String) :
    getVal k ([] : List (String × α)) = none := rfl

theorem getVal_cons {α : Type} (a k : String) (b : α) (m : List (String × α)) :
    getVal k ((a, b) :: m) = if a = k then some b else getVal k m := by
  by_cases h : a = k <;> simp [getVal, List.find?_cons, h]

theorem keysOf_setItem {α : Type} (m : List (String × α)) (k : String) (v : α) :
    keysOf (setItem m k v) = stepIns (keysOf m) k := by
  induction m with
  | nil => simp [setItem, stepIns]
  | cons p rest ih =>
      obtain ⟨a, b⟩ := p
      by_cases h : a = k
      · subst h
        simp [setItem, stepIns]
      · simp only [setItem, if_neg h, keysOf_cons, ih, stepIns]
        by_cases hk : k ∈ keysOf rest
        · simp [hk, Ne.symm h]
        · simp [hk, Ne.symm h]

theorem mem_keysOf_setItem_self {α : Type} (m : List (String × α)) (k : String)
    (v : α) : k ∈ keysOf (setItem m k v) := by
  rw [keysOf_setItem]
  unfold stepIns
  by_cases h : k ∈ keysOf m <;> simp [h]

theorem mem_keysOf_setItem_of_mem {α : Type} {m : List (String × α)} {j : String}
    (k : String) (v : α) (h : j ∈ keysOf m) : j ∈ keysOf (setItem m k v) := by
  rw [keysOf_setItem]
  unfold stepIns
  by_cases hk : k ∈ keysOf m <;> simp [h, hk]

theorem getVal_setItem {α : Type} (m : List (String × α)) (k k' : String) (v : α) :
    getVal k' (setItem m k v) = if k = k' then some v else getVal k' m := by
  induction m with
  | nil =>
      by_cases h : k = k' <;> simp [setItem, getVal_cons, h]
  | cons p rest ih =>
      obtain ⟨a, b⟩ := p
      by_cases h : a = k
      · subst h
        by_cases h2 : a = k' <;> simp [setItem, getVal_cons, h2]
      · by_cases h3 : a = k'
        · subst h3
          have : ¬ k = a := fun hc => h hc.symm
          simp [setItem, h, getVal_cons, this]
        · simp [setItem, h, getVal_cons, h3, ih]

theorem setItem_setItem_same {α : Type} (m : List (String × α)) (k : String)
    (v w : α) : setItem (setItem m k w) k v = setItem m k v := by
  induction m with
  | nil => simp [setItem]
  | cons p rest ih =>
      obtain ⟨a, b⟩ := p
      by_cases h : a = k
      · subst h
        simp [setItem]
      · simp [setItem, h, ih]

theorem setItem_comm_of_mem {α : Type} {m : List (String × α)} {k : String}
    (k2 : String) (v v2 : α) (hmem : k ∈ keysOf m) (hne : k ≠ k2) :
    setItem (setItem m k2 v2) k v = setItem (setItem m k v) k2 v2 := by
  induction m with
  | nil => simp at hmem
  | cons p rest ih =>
      obtain ⟨a, b⟩ := p
      by_cases h1 : a = k2
      · subst h1
        simp [setItem, Ne.symm hne]
      · by_cases h2 : a = k
        · subst h2
          simp [setItem, h1, hne]
        · have hmem' : k ∈ keysOf rest := by
            rcases (List.mem_cons.mp (by simpa using hmem)) with h | h
            · exact absurd h.symm h2
            · exact h
          simp [setItem, h1, h2, ih hmem']

theorem setItem_append_of_not_mem {α : Type} {m : List (String × α)} {k : String}
    (v : α) (h : k ∉ keysOf m) : setItem m k v = m ++ [(k, v)] := by
  induction m with
  | nil => simp [setItem]
  | cons p rest ih =>
      obtain ⟨a, b⟩ := p
      have ha : a ≠ k := fun hc => h (by simp [hc])
      have hr : k ∉ keysOf rest := fun hc => h (by simp [hc])
      simp [setItem, ha, ih hr]

theorem length_setItem {α : Type} (m : List (String × α)) (k : String) (v : α) :
    (setItem m k v).length = if k ∈ keysOf m then m.length else m.length + 1 := by
  induction m with
  | nil => simp [setItem]
  | cons p rest ih =>
      obtain ⟨a, b⟩ := p
      by_cases h : a = k
      · subst h
        simp [setItem]
      · by_cases hk : k ∈ keysOf rest <;>
          simp [setItem, h, Ne.symm h, hk, ih]

theorem nodup_keysOf_setItem {α : Type} {m : List (String × α)} (k : String)
    (v : α) (h : (keysOf m).Nodup) : (keysOf (setItem m k v)).Nodup := by
  rw [keysOf_setItem]
  unfold stepIns
  by_cases hk : k ∈ keysOf m
  · simpa [hk] using h
  · simp [hk, List.nodup_append, h]

theorem setItem_foldl_of_mem {α : Type} {k : String} (v : α)
    (xs : List (String × α)) : ∀ acc : List (String × α), k ∈ keysOf acc →
    k ∉ keysOf xs →
    setItem (List.foldl insStep acc xs) k v = List.foldl insStep (setItem acc k v) xs := by
  induction xs with
  | nil => intro acc _ _; rfl
  | cons p rest ih =>
      intro acc hacc hxs
      have hp : p.1 ≠ k := fun hc => hxs (by simp [hc])
      have hr : k ∉ keysOf rest := fun hc => hxs (by simp [hc])
      have step1 :
          setItem (List.foldl insStep (insStep acc p) rest) k v =
            List.foldl insStep (setItem (insStep acc p) k v) rest :=
        ih (insStep acc p) (mem_keysOf_setItem_of_mem p.1 p.2 hacc) hr
      have step2 : setItem (insStep acc p) k v = insStep (setItem acc k v) p :=
        setItem_comm_of_mem p.1 v p.2 hacc (Ne.symm hp)
      calc setItem (List.foldl insStep acc (p :: rest)) k v
          = setItem (List.foldl insStep (insStep acc p) rest) k v := rfl
        _ = List.foldl insStep (setItem (insStep acc p) k v) rest := step1
        _ = List.foldl insStep (insStep (setItem acc k v) p) rest := by rw [step2]
        _ = List.foldl insStep (setItem acc k v) (p :: rest) := rfl

theorem foldl_insStep_setItem {α : Type} (init : List (String × α)) :
    ∀ acc : List (String × α), ∀ k : String, ∀ v : α, (keysOf init).Nodup →
    List.foldl insStep acc (setItem init k v) =
      setItem (List.foldl insStep acc init) k v := by
  induction init with
  | nil => intro acc k v _; rfl
  | cons p rest ih =>
      intro acc k v hnd
      obtain ⟨a, b⟩ := p
      have ha : a ∉ keysOf rest := by
        have := List.nodup_cons.mp (by simpa using hnd)
        exact this.1
      have hnd' : (keysOf rest).Nodup := by
        have := List.nodup_cons.mp (by simpa using hnd)
        exact this.2
      by_cases h : a = k
      · subst h
        have lhs : setItem ((a, b) :: rest) a v = (a, v) :: rest := by
          simp [setItem]
        rw [lhs]
        have rhs :
            setItem (List.foldl insStep acc ((a, b) :: rest)) a v =
              List.foldl insStep (setItem (setItem acc a b) a v) rest := by
          have : List.foldl insStep acc ((a, b) :: rest) =
              List.foldl insStep (setItem acc a b) rest := rfl
          rw [this]
          exact setItem_foldl_of_mem v rest (setItem acc a b)
            (mem_keysOf_setItem_self acc a b) ha
        rw [rhs, setItem_setItem_same]
        rfl
      · have lhs : setItem ((a, b) :: rest) k v = (a, b) :: setItem rest k v := by
          simp [setItem, h]
        rw [lhs]
        calc List.foldl insStep acc ((a, b) :: setItem rest k v)
            = List.foldl insStep (insStep acc (a, b)) (setItem rest k v) := rfl
          _ = setItem (List.foldl insStep (insStep acc (a, b)) rest) k v :=
              ih (insStep acc (a, b)) k v hnd'
          _ = setItem (List.foldl insStep acc ((a, b) :: rest)) k v := rfl

theorem foldl_insStep_foldl {α : Type} (xs : List (String × α)) :
    ∀ init acc : List (String × α), (keysOf init).Nodup →
    List.foldl insStep acc (List.foldl insStep init xs) =
      List.foldl insStep (List.foldl insStep acc init) xs := by
  induction xs with
  | nil => intro init acc _; rfl
  | cons p rest ih =>
      intro init acc hnd
      have h1 : List.foldl insStep init (p :: rest) =
          List.foldl insStep (insStep init p) rest := rfl
      rw [h1, ih (insStep init p) acc (nodup_keysOf_setItem p.1 p.2 hnd)]
      have h2 : List.foldl insStep acc (insStep init p) =
          insStep (List.foldl insStep acc init) p := by
        unfold insStep
        exact foldl_insStep_setItem init acc p.1 p.2 hnd
      rw [h2]
      rfl

theorem foldl_insStep_pydict {α : Type} (acc xs : List (String × α)) :
    List.foldl insStep acc (pydict xs) = List.foldl insStep acc xs := by
  have := foldl_insStep_foldl xs [] acc (by simp [keysOf])
  simpa [pydict] using this

theorem pydict_collapse {α : Type} (A B C : List (String × α)) :
    pydict (A ++ pydict B ++ C) = pydict (A ++ B ++ C) := by
  show List.foldl insStep [] (A ++ pydict B ++ C) =
    List.foldl insStep [] (A ++ B ++ C)
  rw [List.foldl_append, List.foldl_append, List.foldl_append, List.foldl_append]
  rw [foldl_insStep_pydict]

theorem keysOf_foldl_nodup {α : Type} (xs : List (String × α)) :
    ∀ acc : List (String × α), (keysOf acc).Nodup →
    (keysOf (List.foldl insStep acc xs)).Nodup := by
  induction xs with
  | nil => intro acc h; exact h
  | cons p rest ih =>
      intro acc h
      exact ih (insStep acc p) (nodup_keysOf_setItem p.1 p.2 h)

theorem keysOf_pydict_nodup {α : Type} (xs : List (String × α)) :
    (keysOf (pydict xs)).Nodup :=
  keysOf_foldl_nodup xs [] (by simp [keysOf])

theorem foldl_insStep_eq_append {α : Type} (xs : List (String × α)) :
    ∀ acc : List (String × α), (keysOf (acc ++ xs)).Nodup →
    List.foldl insStep acc xs = acc ++ xs := by
  induction xs with
  | nil => intro acc _; simp
  | cons p rest ih =>
      intro acc h
      have hsplit : (keysOf acc ++ p.1 :: keysOf rest).Nodup := by simpa using h
      have hnotin : p.1 ∉ keysOf acc := by
        intro hc
        have hdisj := List.disjoint_of_nodup_append hsplit
        exact hdisj hc (by simp)
      have h1 : insStep acc p = acc ++ [p] := by
        have := setItem_append_of_not_mem (m := acc) (k := p.1) p.2 hnotin
        simpa [insStep] using this
      have h2 : (keysOf ((acc ++ [p]) ++ rest)).Nodup := by
        have : (acc ++ [p]) ++ rest = acc ++ p :: rest := by simp
        rw [this]
        simpa using h
      calc List.foldl insStep acc (p :: rest)
          = List.foldl insStep (insStep acc p) rest := rfl
        _ = List.foldl insStep (acc ++ [p]) rest := by rw [h1]
        _ = (acc ++ [p]) ++ rest := ih (acc ++ [p]) h2
        _ = acc ++ p :: rest := by simp

theorem pydict_eq_self_of_nodup {α : Type} {xs : List (String × α)}
    (h : (keysOf xs).Nodup) : pydict xs = xs := by
  have := foldl_insStep_eq_append xs [] (by simpa using h)
  simpa [pydict] using this

theorem getVal_foldl_insStep {α : Type} (xs : List (String × α)) :
    ∀ acc : List (String × α), ∀ k : String,
    getVal k (List.foldl insStep acc xs) =
      match lastVal k xs with
      | some v => some v
      | Option.none => getVal k acc := by
  induction xs using List.reverseRecOn with
  | nil => intro acc k; rfl
  | append_singleton ys p ih =>
      intro acc k
      obtain ⟨a, b⟩ := p
      have h1 : List.foldl insStep acc (ys ++ [(a, b)]) =
          setItem (List.foldl insStep acc ys) a b := by
        rw [List.foldl_append]
        rfl
      have h2 : lastVal k (ys ++ [(a, b)]) =
          if a = k then some b else lastVal k ys := by
        unfold lastVal
        rw [List.reverse_append]
        simp [getVal_cons]
      rw [h1, getVal_setItem, h2]
      by_cases h : a = k
      · simp [h]
      · simp [h, ih acc k]

theorem getVal_pydict {α : Type} (xs : List (String × α)) (k : String) :
    getVal k (pydict xs) = lastVal k xs := by
  have := getVal_foldl_insStep xs [] k
  cases h : lastVal k xs <;> simpa [pydict, h] using this

theorem keysOf_foldl_insStep {α : Type} (xs : List (String × α)) :
    ∀ acc : List (String × α),
    keysOf (List.foldl insStep acc xs) =
      List.foldl stepIns (keysOf acc) (keysOf xs) := by
  induction xs with
  | nil => intro acc; rfl
  | cons p rest ih =>
      intro acc
      have h1 : keysOf (insStep acc p) = stepIns (keysOf acc) p.1 :=
        keysOf_setItem acc p.1 p.2
      calc keysOf (List.foldl insStep (insStep acc p) rest)
          = List.foldl stepIns (keysOf (insStep acc p)) (keysOf rest) := ih _
        _ = List.foldl stepIns (stepIns (keysOf acc) p.1) (keysOf rest) := by rw [h1]

theorem length_stepIns_foldl_le (l : List String) :
    ∀ ka : List String, (List.foldl stepIns ka l).length ≤ ka.length + l.length := by
  induction l with
  | nil => intro ka; simp
  | cons k rest ih =>
      intro ka
      have hlen : (stepIns ka k).length ≤ ka.length + 1 := by
        unfold stepIns
        by_cases h : k ∈ ka <;> simp [h]
      have := ih (stepIns ka k)
      calc (List.foldl stepIns (stepIns ka k) rest).length
          ≤ (stepIns ka k).length + rest.length := this
        _ ≤ ka.length + 1 + rest.length := by omega
        _ = ka.length + (k :: rest).length := by simp; omega

theorem length_stepIns_foldl_lt_of_mem (l : List String) :
    ∀ ka : List String, (∃ x ∈ l, x ∈ ka) →
    (List.foldl stepIns ka l).length < ka.length + l.length := by
  induction l with
  | nil =>
      intro ka h
      obtain ⟨x, hx, _⟩ := h
      simp at hx
  | cons k rest ih =>
      intro ka h
      by_cases hk : k ∈ ka
      · have h1 : stepIns ka k = ka := by simp [stepIns, hk]
        rw [show List.foldl stepIns ka (k :: rest) =
          List.foldl stepIns (stepIns ka k) rest from rfl, h1]
        have := length_stepIns_foldl_le rest ka
        simp only [List.length_cons]
        omega
      · obtain ⟨x, hx, hxka⟩ := h
        have hxr : x ∈ rest := by
          rcases List.mem_cons.mp hx with h | h
          · subst h; exact absurd hxka hk
          · exact h
        have h1 : stepIns ka k = ka ++ [k] := by simp [stepIns, hk]
        rw [show List.foldl stepIns ka (k :: rest) =
          List.foldl stepIns (stepIns ka k) rest from rfl, h1]
        have := ih (ka ++ [k]) ⟨x, hxr, by simp [hxka]⟩
        simp only [List.length_append, List.length_cons, List.length_nil] at this ⊢
        omega

theorem length_stepIns_foldl_lt_of_not_nodup (l : List String) :
    ∀ ka : List String, ¬ l.Nodup →
    (List.foldl stepIns ka l).length < ka.length + l.length := by
  induction l with
  | nil => intro ka h; exact absurd List.nodup_nil h
  | cons k rest ih =>
      intro ka h
      by_cases hk : k ∈ ka
      · have h1 : stepIns ka k = ka := by simp [stepIns, hk]
        rw [show List.foldl stepIns ka (k :: rest) =
          List.foldl stepIns (stepIns ka k) rest from rfl, h1]
        have := length_stepIns_foldl_le rest ka
        simp only [List.length_cons]
        omega
      · have h1 : stepIns ka k = ka ++ [k] := by simp [stepIns, hk]
        rw [show List.foldl stepIns ka (k :: rest) =
          List.foldl stepIns (stepIns ka k) rest from rfl, h1]
        by_cases hkr : k ∈ rest
        · have := length_stepIns_foldl_lt_of_mem rest (ka ++ [k])
            ⟨k, hkr, by simp⟩
          simp only [List.length_append, List.length_cons, List.length_nil] at this ⊢
          omega
        · have hnr : ¬ rest.Nodup := by
            intro hc
            exact h (List.nodup_cons.mpr ⟨hkr, hc⟩)
          have := ih (ka ++ [k]) hnr
          simp only [List.length_append, List.length_cons, List.length_nil] at this ⊢
          omega

theorem length_pydict_lt_of_not_nodup {α : Type} {xs : List (String × α)}
    (h : ¬ (keysOf xs).Nodup) : (pydict xs).length < xs.length := by
  have h1 : (pydict xs).length = (keysOf (pydict xs)).length :=
    (keysOf_length _).symm
  have h2 : keysOf (pydict xs) = List.foldl stepIns [] (keysOf xs) := by
    have := keysOf_foldl_insStep xs []
    simpa [pydict] using this
  have h3 := length_stepIns_foldl_lt_of_not_nodup (keysOf xs) [] h
  rw [h1, h2]
  simpa using h3

mutual
theorem objItems_raw (fields : JObj) (parent_key sep : String) :
    ∀ acc : List (String × Json),
    List.foldl insStep acc (objItems fields parent_key sep) =
      List.foldl insStep acc (rawObjItems fields parent_key sep) := by
  cases fields with
  | nil => intro acc; rfl
  | cons k v rest =>
      intro acc
      cases v with
      | obj f2 =>
          simp only [objItems, rawObjItems, List.foldl_append]
          rw [foldl_insStep_pydict,
            objItems_raw f2 (if parent_key = "" then k else parent_key ++ sep ++ k) sep acc,
            objItems_raw rest parent_key sep]
      | arr es =>
          simp only [objItems, rawObjItems, List.foldl_append]
          rw [arrItems_raw es (if parent_key = "" then k else parent_key ++ sep ++ k) sep 0 acc,
            objItems_raw rest parent_key sep]
      | str s =>
          simp only [objItems, rawObjItems, List.foldl_append]
          rw [objItems_raw rest parent_key sep]
      | num n =>
          simp only [objItems, rawObjItems, List.foldl_append]
          rw [objItems_raw rest parent_key sep]
      | bool b =>
          simp only [objItems, rawObjItems, List.foldl_append]
          rw [objItems_raw rest parent_key sep]
      | null =>
          simp only [objItems, rawObjItems, List.foldl_append]
          rw [objItems_raw rest parent_key sep]

theorem arrItems_raw (elems : JArr) (key sep : String) (i : Nat) :
    ∀ acc : List (String × Json),
    List.foldl insStep acc (arrItems elems key sep i) =
      List.foldl insStep acc (rawArrItems elems key sep i) := by
  cases elems with
  | nil => intro acc; rfl
  | cons item rest =>
      intro acc
      cases item with
      | obj f2 =>
          simp only [arrItems, rawArrItems, List.foldl_append]
          rw [foldl_insStep_pydict,
            objItems_raw f2 (key ++ sep ++ toString i) sep acc,
            arrItems_raw rest key sep (i + 1)]
      | arr es =>
          simp only [arrItems, rawArrItems, List.foldl_append]
          rw [arrItems_raw rest key sep (i + 1)]
      | str s =>
          simp only [arrItems, rawArrItems, List.foldl_append]
          rw [arrItems_raw rest key sep (i + 1)]
      | num n =>
          simp only [arrItems, rawArrItems, List.foldl_append]
          rw [arrItems_raw rest key sep (i + 1)]
      | bool b =>
          simp only [arrItems, rawArrItems, List.foldl_append]
          rw [arrItems_raw rest key sep (i + 1)]
      | null =>
          simp only [arrItems, rawArrItems, List.foldl_append]
          rw [arrItems_raw rest key sep (i + 1)]
end

theorem flatten_json_eq_pydict_raw (data : Json) (parent_key sep : String) :
    flatten_json data parent_key sep = pydict (rawFlatten data parent_key sep) := by
  cases data with
  | obj fields =>
      show pydict (objItems fields parent_key sep) =
        pydict (rawObjItems fields parent_key sep)
      exact objItems_raw fields parent_key sep []
  | arr elems =>
      show pydict (arrItems elems parent_key sep 0) =
        pydict (rawArrItems elems parent_key sep 0)
      exact arrItems_raw elems parent_key sep 0 []
  | str s => rfl
  | num n => rfl
  | bool b => rfl
  | null => rfl

mutual
theorem rawObjItems_length (fields : JObj) (parent_key sep : String)
    (h : noNestedArrO fields = true) :
    (rawObjItems fields parent_key sep).length = countLeavesO fields := by
  cases fields with
  | nil => rfl
  | cons k v rest =>
      have hv : noNestedArr v = true ∧ noNestedArrO rest = true := by
        simpa [noNestedArrO, Bool.and_eq_true] using h
      cases v with
      | obj f2 =>
          have h2 : noNestedArrO f2 = true := by
            simpa [noNestedArr] using hv.1
          simp [rawObjItems, countLeavesO, countLeaves,
            rawObjItems_length f2 (if parent_key = "" then k else parent_key ++ sep ++ k) sep h2,
            rawObjItems_length rest parent_key sep hv.2]
      | arr es =>
          have h2 : noNestedArrA es = true := by
            simpa [noNestedArr] using hv.1
          simp [rawObjItems, countLeavesO, countLeaves,
            rawArrItems_length es (if parent_key = "" then k else parent_key ++ sep ++ k) sep 0 h2,
            rawObjItems_length rest parent_key sep hv.2]
      | str s =>
          simp [rawObjItems, countLeavesO, countLeaves,
            rawObjItems_length rest parent_key sep hv.2]
          omega
      | num n =>
          simp [rawObjItems, countLeavesO, countLeaves,
            rawObjItems_length rest parent_key sep hv.2]
          omega
      | bool b =>
          simp [rawObjItems, countLeavesO, countLeaves,
            rawObjItems_length rest parent_key sep hv.2]
          omega
      | null =>
          simp [rawObjItems, countLeavesO, countLeaves,
            rawObjItems_length rest parent_key sep hv.2]
          omega

theorem rawArrItems_length (elems : JArr) (key sep : String) (i : Nat)
    (h : noNestedArrA elems = true) :
    (rawArrItems elems key sep i).length = countLeavesA elems := by
  cases elems with
  | nil => rfl
  | cons item rest =>
      cases item with
      | obj f2 =>
          have hv : noNestedArrO f2 = true ∧ noNestedArrA rest = true := by
            simpa [noNestedArrA, noNestedArr, Bool.and_eq_true] using h
          simp [rawArrItems, countLeavesA, countLeaves,
            rawObjItems_length f2 (key ++ sep ++ toString i) sep hv.1,
            rawArrItems_length rest key sep (i + 1) hv.2]
      | arr es => simp [noNestedArrA] at h
      | str s =>
          have hv : noNestedArrA rest = true := by
            simpa [noNestedArrA, noNestedArr, Bool.and_eq_true] using h
          simp [rawArrItems, countLeavesA, countLeaves,
            rawArrItems_length rest key sep (i + 1) hv]
          omega
      | num n =>
          have hv : noNestedArrA rest = true := by
            simpa [noNestedArrA, noNestedArr, Bool.and_eq_true] using h
          simp [rawArrItems, countLeavesA, countLeaves,
            rawArrItems_length rest key sep (i + 1) hv]
          omega
      | bool b =>
          have hv : noNestedArrA rest = true := by
            simpa [noNestedArrA, noNestedArr, Bool.and_eq_true] using h
          simp [rawArrItems, countLeavesA, countLeaves,
            rawArrItems_length rest key sep (i + 1) hv]
          omega
      | null =>
          have hv : noNestedArrA rest = true := by
            simpa [noNestedArrA, noNestedArr, Bool.and_eq_true] using h
          simp [rawArrItems, countLeavesA, countLeaves,
            rawArrItems_length rest key sep (i + 1) hv]
          omega
end

theorem rawFlatten_length (data : Json) (parent_key sep : String)
    (h : noNestedArr data = true) :
    (rawFlatten data parent_key sep).length = countLeaves data := by
  cases data with
  | obj fields =>
      exact rawObjItems_length fields parent_key sep (by simpa [noNestedArr] using h)
  | arr elems =>
      exact rawArrItems_length elems parent_key sep 0 (by simpa [noNestedArr] using h)
  | str s => rfl
  | num n => rfl
  | bool b => rfl
  | null => rfl

mutual
theorem zObjItems_eq (fields : JObj) (parent_key sep : String) :
    zObjItems fields parent_key sep = objItems fields parent_key sep := by
  cases fields with
  | nil => rfl
  | cons k v rest =>
      cases v with
      | obj f2 =>
          simp only [zObjItems, objItems,
            zObjItems_eq f2 (if parent_key = "" then k else parent_key ++ sep ++ k) sep,
            zObjItems_eq rest parent_key sep]
      | arr es =>
          simp only [zObjItems, objItems,
            zArrItems_eq es (if parent_key = "" then k else parent_key ++ sep ++ k) sep 0,
            zObjItems_eq rest parent_key sep]
      | str s => simp only [zObjItems, objItems, zObjItems_eq rest parent_key sep]
      | num n => simp only [zObjItems, objItems, zObjItems_eq rest parent_key sep]
      | bool b => simp only [zObjItems, objItems, zObjItems_eq rest parent_key sep]
      | null => simp only [zObjItems, objItems, zObjItems_eq rest parent_key sep]

theorem zArrItems_eq (elems : JArr) (key sep : String) (i : Nat) :
    zArrItems elems key sep i = arrItems elems key sep i := by
  cases elems with
  | nil => rfl
  | cons item rest =>
      cases item with
      | obj f2 =>
          simp only [zArrItems, arrItems,
            zObjItems_eq f2 (key ++ sep ++ toString i) sep,
            zArrItems_eq rest key sep (i + 1)]
      | arr es => simp only [zArrItems, arrItems, zArrItems_eq rest key sep (i + 1)]
      | str s => simp only [zArrItems, arrItems, zArrItems_eq rest key sep (i + 1)]
      | num n => simp only [zArrItems, arrItems, zArrItems_eq rest key sep (i + 1)]
      | bool b => simp only [zArrItems, arrItems, zArrItems_eq rest key sep (i + 1)]
      | null => simp only [zArrItems, arrItems, zArrItems_eq rest key sep (i + 1)]
end

theorem flatten_json_zebra_eq (data : Json) (parent_key sep : String) :
    flatten_json_zebra data parent_key sep = flatten_json data parent_key sep := by
  cases data with
  | obj fields =>
      show pydict (zObjItems fields parent_key sep) =
        pydict (objItems fields parent_key sep)
      rw [zObjItems_eq]
  | arr elems =>
      show pydict (zArrItems elems parent_key sep 0) =
        pydict (arrItems elems parent_key sep 0)
      rw [zArrItems_eq]
  | str s => rfl
  | num n => rfl
  | bool b => rfl
  | null => rfl

theorem arrItems_spec (elems : JArr) (key sep : String) (i : Nat) :
    arrItems elems key sep i = specArrMerge (JArr.toList elems) key sep i := by
  cases elems with
  | nil => rfl
  | cons item rest =>
      have ih := arrItems_spec rest key sep (i + 1)
      have henum : List.enumFrom i (item :: JArr.toList rest) =
          (i, item) :: List.enumFrom (i + 1) (JArr.toList rest) := rfl
      cases item with
      | obj f2 =>
          show pydict (objItems f2 (key ++ sep ++ toString i) sep) ++
              arrItems rest key sep (i + 1) =
            specArrMerge (Json.obj f2 :: JArr.toList rest) key sep i
          simp only [specArrMerge, henum, List.flatMap_cons, ih]
          rfl
      | arr es =>
          show (key ++ sep ++ toString i, Json.arr es) :: arrItems rest key sep (i + 1) =
            specArrMerge (Json.arr es :: JArr.toList rest) key sep i
          simp only [specArrMerge, henum, List.flatMap_cons, ih]
          rfl
      | str s =>
          show (key ++ sep ++ toString i, Json.str s) :: arrItems rest key sep (i + 1) =
            specArrMerge (Json.str s :: JArr.toList rest) key sep i
          simp only [specArrMerge, henum, List.flatMap_cons, ih]
          rfl
      | num n =>
          show (key ++ sep ++ toString i, Json.num n) :: arrItems rest key sep (i + 1) =
            specArrMerge (Json.num n :: JArr.toList rest) key sep i
          simp only [specArrMerge, henum, List.flatMap_cons, ih]
          rfl
      | bool b =>
          show (key ++ sep ++ toString i, Json.bool b) :: arrItems rest key sep (i + 1) =
            specArrMerge (Json.bool b :: JArr.toList rest) key sep i
          simp only [specArrMerge, henum, List.flatMap_cons, ih]
          rfl
      | null =>
          show (key ++ sep ++ toString i, Json.null) :: arrItems rest key sep (i + 1) =
            specArrMerge (Json.null :: JArr.toList rest) key sep i
          simp only [specArrMerge, henum, List.flatMap_cons, ih]
          rfl

theorem objItems_specObjMerge (fields : JObj) (parent_key sep : String) :
    ∀ acc : List (String × Json),
    List.foldl insStep acc (objItems fields parent_key sep) =
      List.foldl insStep acc (specObjMerge (JObj.toList fields) parent_key sep) := by
  cases fields with
  | nil => intro acc; rfl
  | cons k v rest =>
      intro acc
      have ih := objItems_specObjMerge rest parent_key sep
      have hspec : specObjMerge ((k, v) :: JObj.toList rest) parent_key sep =
          flatten_json v (if parent_key = "" then k else parent_key ++ sep ++ k) sep ++
            specObjMerge (JObj.toList rest) parent_key sep := by
        simp [specObjMerge]
      simp only [JObj.toList]
      rw [hspec, List.foldl_append]
      cases v with
      | obj f2 =>
          simp only [objItems, List.foldl_append]
          rw [ih]
          rfl
      | arr es =>
          simp only [objItems, List.foldl_append]
          rw [ih]
          rw [show List.foldl insStep acc
              (flatten_json (Json.arr es) (if parent_key = "" then k else parent_key ++ sep ++ k) sep) =
            List.foldl insStep acc
              (arrItems es (if parent_key = "" then k else parent_key ++ sep ++ k) sep 0) from
            foldl_insStep_pydict acc _]
      | str s =>
          simp only [objItems, List.foldl_append]
          rw [ih]
          rfl
      | num n =>
          simp only [objItems, List.foldl_append]
          rw [ih]
          rfl
      | bool b =>
          simp only [objItems, List.foldl_append]
          rw [ih]
          rfl
      | null =>
          simp only [objItems, List.foldl_append]
          rw [ih]
          rfl

theorem postParseBranch_mem_keys (pyStr : PyVal → String) (d : PyVal) (p : String) :
    (p ++ "_id") ∈ keysOf (postParseBranch pyStr d p) ∧
      (p ++ "_name") ∈ keysOf (postParseBranch pyStr d p) := by
  cases d with
  | dict m =>
      constructor
      · exact mem_keysOf_setItem_of_mem _ _ (mem_keysOf_setItem_of_mem _ _
          (mem_keysOf_setItem_of_mem _ _ (mem_keysOf_setItem_of_mem _ _
            (mem_keysOf_setItem_of_mem _ _ (mem_keysOf_setItem_of_mem _ _
              (mem_keysOf_setItem_self _ _ _))))))
      · exact mem_keysOf_setItem_of_mem _ _ (mem_keysOf_setItem_of_mem _ _
          (mem_keysOf_setItem_of_mem _ _ (mem_keysOf_setItem_of_mem _ _
            (mem_keysOf_setItem_of_mem _ _ (mem_keysOf_setItem_self _ _ _)))))
  | none =>
      exact ⟨mem_keysOf_setItem_of_mem _ _ (mem_keysOf_setItem_self _ _ _),
        mem_keysOf_setItem_self _ _ _⟩
  | str s =>
      exact ⟨mem_keysOf_setItem_of_mem _ _ (mem_keysOf_setItem_self _ _ _),
        mem_keysOf_setItem_self _ _ _⟩
  | int n =>
      exact ⟨mem_keysOf_setItem_of_mem _ _ (mem_keysOf_setItem_self _ _ _),
        mem_keysOf_setItem_self _ _ _⟩
  | bool b =>
      exact ⟨mem_keysOf_setItem_of_mem _ _ (mem_keysOf_setItem_self _ _ _),
        mem_keysOf_setItem_self _ _ _⟩
  | list l =>
      exact ⟨mem_keysOf_setItem_of_mem _ _ (mem_keysOf_setItem_self _ _ _),
        mem_keysOf_setItem_self _ _ _⟩

/-- Claim C1, counterexample.  The claim says the entry count of
`flatten_json` always equals the number of scalar leaves.  For the input
`[[]]` (an array whose only element is an empty array) the function returns
the one-entry mapping `{"_0": []}` although the input has no scalar leaf at
all: an array nested directly inside an array is stored whole, not
flattened. -/
theorem C1_counterexample :
    (flatten_json (.arr (JArr.ofList [.arr .nil])) "" "_").length = 1 ∧
      countLeaves (.arr (JArr.ofList [.arr .nil])) = 0 ∧
      ¬ (flatten_json (.arr (JArr.ofList [.arr .nil])) "" "_").length =
          countLeaves (.arr (JArr.ofList [.arr .nil])) := by
  decide

/-- Claim C1, amended.  `flatten_json({})` and `flatten_json([])` return the
empty mapping, and the entry count equals the number of scalar leaves
provided that no array element is itself an array and that the raw
traversal produces pairwise distinct keys. -/
theorem C1_amended_entry_count (data : Json) (sep : String)
    (hna : noNestedArr data = true)
    (hnd : (keysOf (rawFlatten data "" sep)).Nodup) :
    (flatten_json data "" sep).length = countLeaves data ∧
      flatten_json (Json.obj .nil) "" sep = [] ∧
      flatten_json (Json.arr .nil) "" sep = [] := by
  refine ⟨?_, rfl, rfl⟩
  rw [flatten_json_eq_pydict_raw, pydict_eq_self_of_nodup hnd,
    rawFlatten_length data "" sep hna]

/-- Claim C1, witness: the amended count theorem applied to the concrete
input `{"a": 1, "b": [2]}`, which has two scalar leaves. -/
theorem C1_witness :
    noNestedArr (.obj (JObj.ofList [("a", .num 1), ("b", .arr (JArr.ofList [.num 2]))])) = true ∧
      (keysOf (rawFlatten (.obj (JObj.ofList [("a", .num 1), ("b", .arr (JArr.ofList [.num 2]))])) "" "_")).Nodup ∧
      (flatten_json (.obj (JObj.ofList [("a", .num 1), ("b", .arr (JArr.ofList [.num 2]))])) "" "_").length =
        countLeaves (.obj (JObj.ofList [("a", .num 1), ("b", .arr (JArr.ofList [.num 2]))])) :=
  ⟨by decide, by decide,
    (C1_amended_entry_count _ "_" (by decide) (by decide)).1⟩

/-- Claim C2, counterexample.  The claim says no two distinct root-to-leaf
paths can produce the same output key.  In `{"a": {"b": 1}, "a_b": 2}` the
leaf reached through keys `a` then `b` and the leaf at top-level key `a_b`
both produce the output key `"a_b"`: the raw traversal emits the key twice
and the merged dictionary keeps only the later value. -/
theorem C2_counterexample :
    keysOf (rawFlatten (.obj (JObj.ofList [("a", .obj (JObj.ofList [("b", .num 1)])), ("a_b", .num 2)])) "" "_") =
        ["a_b", "a_b"] ∧
      flatten_json (.obj (JObj.ofList [("a", .obj (JObj.ofList [("b", .num 1)])), ("a_b", .num 2)])) "" "_" =
        [("a_b", Json.num 2)] ∧
      countLeaves (.obj (JObj.ofList [("a", .obj (JObj.ofList [("b", .num 1)])), ("a_b", .num 2)])) = 2 := by
  decide

/-- Claim C2, amended.  Distinct root-to-leaf paths can collapse to the same
output key (for instance when an object key contains the separator), but
whenever the raw traversal keys are pairwise distinct, the merge loses
nothing: the returned mapping is exactly the raw traversal, one entry per
traversal item, with pairwise distinct keys. -/
theorem C2_amended_no_collision (data : Json) (parent_key sep : String)
    (hnd : (keysOf (rawFlatten data parent_key sep)).Nodup) :
    flatten_json data parent_key sep = rawFlatten data parent_key sep ∧
      (keysOf (flatten_json data parent_key sep)).Nodup := by
  have h1 : flatten_json data parent_key sep = rawFlatten data parent_key sep := by
    rw [flatten_json_eq_pydict_raw, pydict_eq_self_of_nodup hnd]
  exact ⟨h1, by rw [h1]; exact hnd⟩

/-- Claim C2, witness: the amended theorem applied to
`{"a": {"b": 1}, "c": 2}`, whose raw keys `a_b` and `c` are distinct. -/
theorem C2_witness :
    (keysOf (rawFlatten (.obj (JObj.ofList [("a", .obj (JObj.ofList [("b", .num 1)])), ("c", .num 2)])) "" "_")).Nodup ∧
      flatten_json (.obj (JObj.ofList [("a", .obj (JObj.ofList [("b", .num 1)])), ("c", .num 2)])) "" "_" =
        rawFlatten (.obj (JObj.ofList [("a", .obj (JObj.ofList [("b", .num 1)])), ("c", .num 2)])) "" "_" :=
  ⟨by decide, (C2_amended_no_collision _ "" "_" (by decide)).1⟩

/-- Claim C3, counterexample.  The claim says every array element is
flattened recursively, arrays included.  For the input `[[1]]` the code
stores the inner array whole under key `"_0"`, whereas recursive flattening
of the element `[1]` under `"_0"` would give `{"_0_0": 1}`. -/
theorem C3_counterexample :
    flatten_json (.arr (JArr.ofList [.arr (JArr.ofList [.num 1])])) "" "_" =
        [("_0", Json.arr (JArr.ofList [.num 1]))] ∧
      flatten_json (.arr (JArr.ofList [.num 1])) "_0" "_" = [("_0_0", Json.num 1)] ∧
      flatten_json (.arr (JArr.ofList [.arr (JArr.ofList [.num 1])])) "" "_" ≠
        flatten_json (.arr (JArr.ofList [.num 1])) "_0" "_" := by
  decide

/-- Claim C3, amended.  For an array, element `i` gets key
`path_prefix + separator + i`; an element that is an object is recursively
flattened under that key, and any other element — scalar or array — becomes
the single entry `(key_i, element)`; the results are merged in order.  (For
a scalar element this single entry coincides with recursive flattening, but
an array element is stored whole, not recursed into.) -/
theorem C3_amended_array_rule (elems : JArr) (parent_key sep : String) :
    flatten_json (Json.arr elems) parent_key sep =
      pydict (specArrMerge (JArr.toList elems) parent_key sep 0) := by
  show pydict (arrItems elems parent_key sep 0) = _
  rw [arrItems_spec]

/-- Claim C4.  In the export loops, the caller-supplied object fields are
written into the flattened mapping afterwards: each named key then holds
the caller-supplied value, overwriting any flattener-produced entry of the
same name, while every other key keeps exactly the value the flattener
produced.  This holds for the zebra loop (keys `object_id`, `object_name`)
and the zwc loop (keys `OBJECT_ID`, `OBJECT_NAME`). -/
theorem C4_caller_fields_override (m : List (String × Json)) (oid oname : String) :
    (getVal "object_id" (add_object_info m oid oname) = some (.str oid) ∧
      getVal "object_name" (add_object_info m oid oname) = some (.str oname) ∧
      ∀ k : String, k ≠ "object_id" → k ≠ "object_name" →
        getVal k (add_object_info m oid oname) = getVal k m) ∧
    (getVal "OBJECT_ID" (add_object_info_zwc m oid oname) = some (.str oid) ∧
      getVal "OBJECT_NAME" (add_object_info_zwc m oid oname) = some (.str oname) ∧
      ∀ k : String, k ≠ "OBJECT_ID" → k ≠ "OBJECT_NAME" →
        getVal k (add_object_info_zwc m oid oname) = getVal k m) := by
  constructor
  · refine ⟨?_, ?_, ?_⟩
    · rw [add_object_info, getVal_setItem, getVal_setItem]
      simp
    · rw [add_object_info, getVal_setItem]
      simp
    · intro k h1 h2
      rw [add_object_info, getVal_setItem, getVal_setItem,
        if_neg (Ne.symm h2), if_neg (Ne.symm h1)]
  · refine ⟨?_, ?_, ?_⟩
    · rw [add_object_info_zwc, getVal_setItem, getVal_setItem]
      simp
    · rw [add_object_info_zwc, getVal_setItem]
      simp
    · intro k h1 h2
      rw [add_object_info_zwc, getVal_setItem, getVal_setItem,
        if_neg (Ne.symm h2), if_neg (Ne.symm h1)]

/-- Claim C4, witness: overwrite and frame shown on the concrete mapping
`{"object_id": "old", "x": 1}` with supplied values `"A"`, `"B"`. -/
theorem C4_witness :
    getVal "object_id" (add_object_info [("object_id", Json.str "old"), ("x", Json.num 1)] "A" "B") =
        some (Json.str "A") ∧
      getVal "x" (add_object_info [("object_id", Json.str "old"), ("x", Json.num 1)] "A" "B") =
        getVal "x" [("object_id", Json.str "old"), ("x", Json.num 1)] :=
  ⟨(C4_caller_fields_override [("object_id", Json.str "old"), ("x", Json.num 1)] "A" "B").1.1,
    (C4_caller_fields_override [("object_id", Json.str "old"), ("x", Json.num 1)] "A" "B").1.2.2
      "x" (by decide) (by decide)⟩

/-- Claim C5, counterexample (negation).  The claim says the two flattener
copies return different mappings on some input; in fact the two source
texts are identical and the functions agree on every input, prefix and
separator. -/
theorem C5_counterexample :
    ¬ ∃ (data : Json) (parent_key sep : String),
        flatten_json_zebra data parent_key sep ≠ flatten_json data parent_key sep := by
  rintro ⟨data, parent_key, sep, h⟩
  exact h (flatten_json_zebra_eq data parent_key sep)

/-- Claim C5, amended.  The two copies of the flattener are extensionally
equal; the convention difference between the two scripts is not in the
flattener but in the caller-supplied field names added after flattening
(`object_id`/`object_name` in zebralistobjectlineage.py versus
`OBJECT_ID`/`OBJECT_NAME` in zwclistobjectlineage_v2.py). -/
theorem C5_amended_identical_copies :
    (∀ (data : Json) (parent_key sep : String),
        flatten_json_zebra data parent_key sep = flatten_json data parent_key sep) ∧
      ∀ oid oname : String,
        keysOf (add_object_info [] oid oname) = ["object_id", "object_name"] ∧
          keysOf (add_object_info_zwc [] oid oname) = ["OBJECT_ID", "OBJECT_NAME"] :=
  ⟨flatten_json_zebra_eq, fun _ _ => ⟨rfl, rfl⟩⟩

/-- Claim C6.  For an object, `flatten_json` visits each key `k` with value
`v`, computes `new_key` as `path_prefix + separator + k` (or `k` alone when
the prefix is empty), recursively flattens `v` under `new_key`, and merges
the sub-mappings in order; in particular flattening `{"a": {"b": 2}}` with
empty prefix gives `{"a_b": 2}`. -/
theorem C6_object_rule :
    (∀ (fields : JObj) (parent_key sep : String),
        flatten_json (Json.obj fields) parent_key sep =
          pydict (specObjMerge (JObj.toList fields) parent_key sep)) ∧
      flatten_json (.obj (JObj.ofList [("a", .obj (JObj.ofList [("b", .num 2)]))])) "" "_" =
        [("a_b", Json.num 2)] :=
  ⟨fun fields parent_key sep => objItems_specObjMerge fields parent_key sep [],
    by decide⟩

/-- Claim C7.  For every scalar value (string, number, boolean or null) and
every path prefix, `flatten_json` returns the single-entry mapping binding
the prefix to the value; with an empty prefix the key is the empty string,
so `flatten_json(42)` gives `{"": 42}`. -/
theorem C7_scalar_rule (v : Json) (parent_key sep : String)
    (h : isScalar v = true) :
    flatten_json v parent_key sep = [(parent_key, v)] := by
  cases v with
  | obj fields => simp [isScalar] at h
  | arr elems => simp [isScalar] at h
  | str s => rfl
  | num n => rfl
  | bool b => rfl
  | null => rfl

/-- Claim C7, witness: the scalar rule applied to the bare top-level scalar
`42` with empty prefix. -/
theorem C7_witness :
    isScalar (Json.num 42) = true ∧
      flatten_json (Json.num 42) "" "_" = [("", Json.num 42)] :=
  ⟨by decide, C7_scalar_rule (Json.num 42) "" "_" (by decide)⟩

/-- Claim C8.  `flatten_json` is total over the JSON value domain: every
case of the value grammar is handled by the (terminating, total) embedding,
and for every value, prefix and separator the call returns a well-formed
mapping, i.e. an association list with pairwise distinct keys. -/
theorem C8_total_returns_mapping (data : Json) (parent_key sep : String) :
    ((keysOf (flatten_json data parent_key sep)).Nodup) :=
  keysOf_pydict_nodup _

/-- Claim C9, counterexample.  The claim says that whenever two leaves
collide on a key, the entry count drops strictly below the leaf count.  In
`{"a_b": 1, "a": {"b": 2}, "c": [[]]}` the two leaves `1` and `2` collide on
key `a_b`, yet the un-flattened empty inner array contributes an entry with
no leaf, so the result has 2 entries and the input has exactly 2 scalar
leaves: the count is not strictly smaller. -/
theorem C9_counterexample :
    countLeaves (.obj (JObj.ofList [("a_b", .num 1), ("a", .obj (JObj.ofList [("b", .num 2)])), ("c", .arr (JArr.ofList [.arr .nil]))])) = 2 ∧
      keysOf (rawFlatten (.obj (JObj.ofList [("a_b", .num 1), ("a", .obj (JObj.ofList [("b", .num 2)])), ("c", .arr (JArr.ofList [.arr .nil]))])) "" "_") =
        ["a_b", "a_b", "c_0"] ∧
      flatten_json (.obj (JObj.ofList [("a_b", .num 1), ("a", .obj (JObj.ofList [("b", .num 2)])), ("c", .arr (JArr.ofList [.arr .nil]))])) "" "_" =
        [("a_b", Json.num 2), ("c_0", Json.arr .nil)] ∧
      ¬ ((flatten_json (.obj (JObj.ofList [("a_b", .num 1), ("a", .obj (JObj.ofList [("b", .num 2)])), ("c", .arr (JArr.ofList [.arr .nil]))])) "" "_").length <
          countLeaves (.obj (JObj.ofList [("a_b", .num 1), ("a", .obj (JObj.ofList [("b", .num 2)])), ("c", .arr (JArr.ofList [.arr .nil]))]))) := by
  decide

/-- Claim C9, amended.  When the final dictionary is built, later traversal
items win: the value bound to any key is the value of its last occurrence
in the raw left-to-right traversal.  If moreover no array element is itself
an array, a duplicated key makes the entry count strictly smaller than the
number of scalar leaves. -/
theorem C9_amended_last_wins :
    (∀ (data : Json) (parent_key sep k : String),
        getVal k (flatten_json data parent_key sep) =
          lastVal k (rawFlatten data parent_key sep)) ∧
      ∀ (data : Json) (parent_key sep : String), noNestedArr data = true →
        ¬ (keysOf (rawFlatten data parent_key sep)).Nodup →
        (flatten_json data parent_key sep).length < countLeaves data := by
  constructor
  · intro data parent_key sep k
    rw [flatten_json_eq_pydict_raw, getVal_pydict]
  · intro data parent_key sep hna hnd
    have h1 := length_pydict_lt_of_not_nodup hnd
    rw [rawFlatten_length data parent_key sep hna] at h1
    rw [flatten_json_eq_pydict_raw]
    exact h1

/-- Claim C9, witness: the strict-decrease part applied to the colliding
input `{"a": {"b": 1}, "a_b": 2}` (no nested arrays, duplicate raw key),
together with a last-wins instance at key `a_b`. -/
theorem C9_witness :
    noNestedArr (.obj (JObj.ofList [("a", .obj (JObj.ofList [("b", .num 1)])), ("a_b", .num 2)])) = true ∧
      ¬ (keysOf (rawFlatten (.obj (JObj.ofList [("a", .obj (JObj.ofList [("b", .num 1)])), ("a_b", .num 2)])) "" "_")).Nodup ∧
      (flatten_json (.obj (JObj.ofList [("a", .obj (JObj.ofList [("b", .num 1)])), ("a_b", .num 2)])) "" "_").length <
        countLeaves (.obj (JObj.ofList [("a", .obj (JObj.ofList [("b", .num 1)])), ("a_b", .num 2)])) ∧
      getVal "a_b" (flatten_json (.obj (JObj.ofList [("a", .obj (JObj.ofList [("b", .num 1)])), ("a_b", .num 2)])) "" "_") =
        lastVal "a_b" (rawFlatten (.obj (JObj.ofList [("a", .obj (JObj.ofList [("b", .num 1)])), ("a_b", .num 2)])) "" "_") :=
  ⟨by decide, by decide,
    C9_amended_last_wins.2 _ "" "_" (by decide) (by decide),
    C9_amended_last_wins.1 _ "" "_" "a_b"⟩

/-- Claim C10.  For every input value (None, the string `'N/A'`, any other
string whether or not it parses, any dict, or any other value) and every
field name stem, `flatten_json_field` returns a mapping containing both the
`_id`-suffixed and the `_name`-suffixed key; the exception handler likewise
writes both keys whatever the mapping held before. -/
theorem C10_id_name_always_present
    (loads : String → Option PyVal) (pyStr : PyVal → String)
    (json_data : PyVal) (fpref : String) :
    ((fpref ++ "_id") ∈ keysOf (flatten_json_field loads pyStr json_data fpref) ∧
      (fpref ++ "_name") ∈ keysOf (flatten_json_field loads pyStr json_data fpref)) ∧
      ∀ (flattened : List (String × PyVal)) (jd2 : PyVal) (emsg : String),
        (fpref ++ "_id") ∈ keysOf (flatten_json_field_except pyStr flattened jd2 fpref emsg) ∧
          (fpref ++ "_name") ∈ keysOf (flatten_json_field_except pyStr flattened jd2 fpref emsg) := by
  constructor
  · cases json_data with
    | none => simp [flatten_json_field, naReturn, keysOf]
    | str s =>
        by_cases h : s = "N/A"
        · simp [flatten_json_field, h, naReturn, keysOf]
        · cases hl : loads s with
          | none => simp [flatten_json_field, h, hl, keysOf]
          | some d =>
              simpa [flatten_json_field, h, hl] using
                postParseBranch_mem_keys pyStr d fpref
    | dict m => exact postParseBranch_mem_keys pyStr (.dict m) fpref
    | int n => exact postParseBranch_mem_keys pyStr (.int n) fpref
    | bool b => exact postParseBranch_mem_keys pyStr (.bool b) fpref
    | list l => exact postParseBranch_mem_keys pyStr (.list l) fpref
  · intro flattened jd2 emsg
    exact ⟨mem_keysOf_setItem_of_mem _ _ (mem_keysOf_setItem_of_mem _ _
        (mem_keysOf_setItem_self _ _ _)),
      mem_keysOf_setItem_of_mem _ _ (mem_keysOf_setItem_self _ _ _)⟩
